import Mathlib

/-!
Verification of the strided n-dimensional array engine specified by the
repository's design document (`spec.md`).  The repository itself is an
educational notebook (`src/index.ipynb`) whose every operation is a call
into a pre-existing array library; the engine the claims talk about is not
present under `src/`, so each definition below is modelled from the spec's
design sections (§3, §4.1, §7) and checked against the notebook's recorded
inputs and outputs.
-/

namespace NDSpec

/-- Modelled from the spec: the error kinds of §7 (`ShapeError`, `ValueError`,
`IndexError`, `ArithmeticError`), plus the "arithmetic is disabled on the
generic-object dtype" failure of §3, which §7 leaves unnamed; we call it
`typeError`. -/
inductive Err where
  | shapeError
  | valueError
  | indexError
  | arithmeticError
  | typeError
deriving DecidableEq, Repr

/-- Product of the axis lengths of a shape: the element count `size` of §3
(empty product = 1 for a 0-dimensional scalar). -/
def listProd : List Nat → Nat
  | [] => 1
  | n :: s => n * listProd s

/-- Row-major flat offset of a multi-index: last axis fastest (§3 strides,
derived for a freshly allocated array). -/
def flatten : List Nat → List Nat → Nat
  | _, [] => 0
  | [], _ => 0
  | _ :: s, i :: is => i * listProd s + flatten s is

/-- Inverse of `flatten`: the multi-index of the `k`-th element in row-major
iteration order over `shape`. -/
def unflatten : (shape : List Nat) → Nat → List Nat
  | [], _ => []
  | _ :: s, k => k / listProd s :: unflatten s (k % listProd s)

/-- A coordinate is valid for a shape when it has one component per axis,
each strictly below that axis' length. -/
def validIdx (shape idx : List Nat) : Prop :=
  idx.length = shape.length ∧ ∀ j, idx.getD j 0 < shape.getD j 1

instance (shape idx : List Nat) : Decidable (validIdx shape idx) :=
  decidable_of_iff (idx.length = shape.length ∧
      ∀ j < max shape.length idx.length, idx.getD j 0 < shape.getD j 1) (by
    unfold validIdx
    refine and_congr_right fun _ => ⟨fun h j => ?_, fun h j _ => h j⟩
    by_cases hj : j < max shape.length idx.length
    · exact h j hj
    · have hs : shape.getD j 1 = 1 := List.getD_eq_default _ _ (by omega)
      have hi : idx.getD j 0 = 0 := List.getD_eq_default _ _ (by omega)
      rw [hs, hi]; omega)

/-- Build the row-major data buffer of an array of the given shape whose
element at coordinate `c` is `f c`; this is the "iterate the result shape in
row-major order" construction used by every allocating operation of §4.1. -/
def tabulate (shape : List Nat) (f : List Nat → Int) : List Int :=
  (List.range (listProd shape)).map (fun k => f (unflatten shape k))

/-- Modelled from the spec: a freshly allocated (owning, row-major) array of
§3, reduced to its observable content — a shape and the buffer in row-major
order.  View-related metadata (strides, offset, base) lives in `Arr` below. -/
structure Vec where
  shape : List Nat
  data : List Int
deriving DecidableEq, Repr

/-- Element of a `Vec` at a multi-index (row-major layout). -/
def Vec.get (v : Vec) (idx : List Nat) : Int :=
  v.data.getD (flatten v.shape idx) 0

/-- Modelled from the spec: `arange(start?, stop, step?)` of §4.1 — a
1-dimensional array of `ceil((stop-start)/step)` elements (clamped at zero,
a list cannot have negatively many elements), element `i` being
`start + i*step`; fails with `ValueError` if `step == 0`.  `start` defaults
to 0 and `step` to 1 at the call sites. -/
def ceilDiv (a b : Int) : Int :=
  if 0 < b then -((-a).fdiv b) else -(a.fdiv (-b))

def arange (start stop step : Int) : Except Err Vec :=
  if step = 0 then .error .valueError
  else
    .ok ⟨[(ceilDiv (stop - start) step).toNat],
      (List.range (ceilDiv (stop - start) step).toNat).map
        (fun i : Nat => start + (i : Int) * step)⟩

/-- Size (element count) of the array an `Except` carries; 0 on error. -/
def exSize : Except Err Vec → Nat
  | .ok v => listProd v.shape
  | .error _ => 0

/-! ### The store/view layer (§3: buffer, strides, base, views, mutation) -/

/-- Modelled from the spec: the collection of owned buffers (§3 `buffer`);
an array descriptor holds an index into this store, so that several views
can alias the same buffer. -/
structure Store where
  bufs : List (List Int)
deriving Repr, DecidableEq

/-- Modelled from the spec: the NDArray descriptor of §3 — an owned or
aliased buffer (`buf` indexes the store), a base offset, shape, strides
(buffer offset delta per unit step along each axis; row-major for freshly
allocated arrays, arbitrary for views), and the optional `base`
back-reference to the owner of the aliased buffer (`none` = owns it). -/
structure Arr where
  buf : Nat
  off : Int
  shape : List Nat
  strides : List Int
  base : Option Nat
deriving Repr, DecidableEq

/-- Integer dot product of strides against a multi-index. -/
def dotZ : List Int → List Nat → Int
  | x :: xs, i :: is => x * (i : Int) + dotZ xs is
  | _, _ => 0

/-- Row-major strides for a shape (last axis fastest, §3). -/
def rowMajorStrides : List Nat → List Int
  | [] => []
  | _ :: s => ((listProd s : Nat) : Int) :: rowMajorStrides s

/-- Flat buffer offset of a multi-index through an array's metadata. -/
def Arr.ofs (a : Arr) (idx : List Nat) : Int :=
  a.off + dotZ a.strides idx

/-- Total lookup into a buffer at a possibly-negative offset (0 default). -/
def getI (l : List Int) (i : Int) : Int :=
  if 0 ≤ i then l.getD i.toNat 0 else 0

/-- Read an element through an array's shape/strides/offset (§4.1
indexing: a fully-integer index selects one buffer element). -/
def Store.read (st : Store) (a : Arr) (idx : List Nat) : Int :=
  getI (st.bufs.getD a.buf []) (a.ofs idx)

/-- Mutate one element through an array: writes the aliased buffer in
place, so every view over the same buffer observes the change (§3). -/
def Store.write (st : Store) (a : Arr) (idx : List Nat) (v : Int) : Store :=
  ⟨st.bufs.set a.buf ((st.bufs.getD a.buf []).set (a.ofs idx).toNat v)⟩

/-- Allocate a fresh owning array from row-major content (§3 lifecycle
(a): allocating constructor; `base = none`, row-major strides). -/
def Store.alloc (st : Store) (v : Vec) : Store × Arr :=
  (⟨st.bufs ++ [v.data]⟩,
    ⟨st.bufs.length, 0, v.shape, rowMajorStrides v.shape, none⟩)

/-- Modelled from the spec: the full-range slice `a[:]` of §4.1 — a
pure-range index expression with default bounds and step 1 on every axis:
shape, strides and offset are unchanged and `base` records the ultimate
owning array's buffer. -/
def sliceFull (a : Arr) : Arr :=
  { a with base := some (a.base.getD a.buf) }

/-- Row-major read-out of an array through its shape/strides/base chain. -/
def Arr.toVec (st : Store) (a : Arr) : Vec :=
  ⟨a.shape, tabulate a.shape (fun c => st.read a c)⟩

/-- Modelled from the spec: `copy()` of §4.1 — always allocates a fresh
buffer, reading through current shape/strides, laying results out in
row-major order; the result has no `base`. -/
def Store.copy (st : Store) (a : Arr) : Store × Arr :=
  st.alloc (a.toVec st)

/-! ### Broadcasting elementwise arithmetic (§4.1) -/

/-- Broadcast two reversed shapes (aligned from the trailing axis): two
axis lengths are compatible if equal or if either is 1 (stretched); a
missing axis counts as length 1; any other mismatch is incompatible. -/
def broadcastRev : List Nat → List Nat → Option (List Nat)
  | [], s => some s
  | s, [] => some s
  | m :: s1, n :: s2 =>
    if m = n ∨ m = 1 ∨ n = 1 then
      (broadcastRev s1 s2).map (fun s => max m n :: s)
    else none

/-- Modelled from the spec: the broadcast result shape of §4.1 — align
from the trailing axis, output shape the elementwise maximum; `none` when
the shapes are incompatible (`ShapeError`). -/
def broadcastShapes (s1 s2 : List Nat) : Option (List Nat) :=
  (broadcastRev s1.reverse s2.reverse).map List.reverse

/-- Source coordinate of one operand for a broadcast output coordinate:
keep the trailing components matching the operand's rank, and read index 0
along any operand axis of length 1 (the "stride effectively 0" rule). -/
def srcIdx (s c : List Nat) : List Nat :=
  (s.zip (c.drop (c.length - s.length))).map (fun p => if p.1 = 1 then 0 else p.2)

/-- Broadcast element fetch of an operand at a result coordinate. -/
def broadcastGet (v : Vec) (c : List Nat) : Int :=
  v.get (srcIdx v.shape c)

/-- Modelled from the spec: elementwise binary arithmetic of §4.1 — fails
with `ShapeError` on incompatible shapes, otherwise returns a freshly
allocated array computed by iterating the broadcast shape in row-major
order and combining the correspondingly-strided source elements. -/
def binop (f : Int → Int → Int) (a b : Vec) : Except Err Vec :=
  match broadcastShapes a.shape b.shape with
  | none => .error .shapeError
  | some s => .ok ⟨s, tabulate s (fun c => f (broadcastGet a c) (broadcastGet b c))⟩

/-- A scalar operand: a 0-dimensional array (empty shape, one element),
which broadcasting stretches along every axis. -/
def scalarVec (x : Int) : Vec :=
  ⟨[], [x]⟩

/-! ### dtype inference (§3, §4.1 `fromNested`) -/

/-- Modelled from the spec: the element kinds of §3 with the promotion
order boolean < integer < float, plus the opaque generic-object kind that
any non-numeric element forces. -/
inductive Kind where
  | kbool
  | kint
  | kfloat
  | kobject
deriving DecidableEq, Repr

/-- Rank of a kind in the promotion order boolean < integer < float (the
generic-object kind absorbs everything). -/
def kindRank : Kind → Nat
  | .kbool => 0
  | .kint => 1
  | .kfloat => 2
  | .kobject => 3

/-- Modelled from the spec: the promotion rule of §3 — if either operand
cannot be unified numerically the result is the generic-object kind,
otherwise the higher kind under boolean < integer < float wins. -/
def promote (k1 k2 : Kind) : Kind :=
  if k1 = .kobject ∨ k2 = .kobject then .kobject
  else if kindRank k1 ≤ kindRank k2 then k2 else k1

/-- Modelled from the spec: a nested input sequence (§4.1 `fromNested`),
with scalar leaves carrying their kind; values are irrelevant to dtype
inference. -/
inductive Nested where
  | leaf (k : Kind)
  | node (children : List Nested)

mutual
/-- The kinds of all scalar leaves of a nested sequence, in order. -/
def leafKinds : Nested → List Kind
  | .leaf k => [k]
  | .node cs => leafKindsL cs
/-- The leaf kinds of a list of nested sequences, concatenated. -/
def leafKindsL : List Nested → List Kind
  | [] => []
  | c :: cs => leafKinds c ++ leafKindsL cs
end

/-- Modelled from the spec: the dtype `fromNested` chooses — the kinds of
all scalar leaves unified under `promote` (the default float kind for an
empty input). -/
def inferDtype (t : Nested) : Kind :=
  match leafKinds t with
  | [] => .kfloat
  | k :: ks => ks.foldl promote k

/-- Modelled from the spec: arithmetic is disabled on the generic-object
dtype (§3) — a dtype-aware binary operation first checks both operand
kinds and otherwise behaves as `binop`. -/
def binopD (f : Int → Int → Int) (ka kb : Kind) (a b : Vec) : Except Err Vec :=
  if ka = .kobject ∨ kb = .kobject then .error .typeError
  else binop f a b

/-- The notebook's `mixedarray = np.array([1, 2.0, 3, np.pi])`: integer
and float leaves mixed. -/
def mixedarray : Nested :=
  .node [.leaf .kint, .leaf .kfloat, .leaf .kint, .leaf .kfloat]

/-- The notebook's `dont_do_this = np.array([1, False, "a string",
object()])`: a string and an object leaf cannot be unified numerically. -/
def dont_do_this : Nested :=
  .node [.leaf .kint, .leaf .kbool, .leaf .kobject, .leaf .kobject]

/-! ### Boolean masks and mask selection (§4.1) -/

/-- A boolean array (mask): shape plus row-major boolean data. -/
structure BVec where
  shape : List Nat
  data : List Bool
deriving DecidableEq, Repr

/-- Mask entry at a multi-index (row-major layout). -/
def BVec.get (m : BVec) (idx : List Nat) : Bool :=
  m.data.getD (flatten m.shape idx) false

/-- Modelled from the spec: an elementwise comparison of an array against
a scalar (`a > s`, `a <= s`, `a >= s`, ...) — a freshly allocated boolean
array of the same shape whose entry holds exactly when the element
satisfies the predicate. -/
def cmpScalar (p : Int → Bool) (a : Vec) : BVec :=
  ⟨a.shape, a.data.map p⟩

/-- Elementwise conjunction of two masks of equal shape (`&`). -/
def maskAnd (m1 m2 : BVec) : BVec :=
  ⟨m1.shape, List.zipWith and m1.data m2.data⟩

/-- Elementwise disjunction of two masks of equal shape (`|`). -/
def maskOr (m1 m2 : BVec) : BVec :=
  ⟨m1.shape, List.zipWith or m1.data m2.data⟩

/-- Modelled from the spec: boolean mask selection of §4.1 — given a mask
of identical shape, a new 1-dimensional copy of every element whose mask
entry is true, in row-major iteration order; mask shape mismatch fails
with `ShapeError`. -/
def maskSelect (a : Vec) (m : BVec) : Except Err Vec :=
  if a.shape = m.shape then
    let picked := (a.data.zip m.data).filterMap
      (fun p => if p.2 then some p.1 else none)
    .ok ⟨[picked.length], picked⟩
  else .error .shapeError

/-- Store-level mask selection: reads the source through its strides and
allocates a fresh owning buffer for the selected elements (a copy, never
a view). -/
def maskSelectSt (st : Store) (a : Arr) (m : BVec) : Except Err (Store × Arr) :=
  (maskSelect (a.toVec st) m).map st.alloc

/-! ### Transposition (§4.1) -/

/-- Permute a list by an axis order: component `i` of the result is the
`order[i]`-th component of the input (`d` is the out-of-range default,
never reached for a true permutation). -/
def permuteAx {α : Type} (p : List Nat) (xs : List α) (d : α) : List α :=
  p.map (fun i => xs.getD i d)

/-- Modelled from the spec: `transpose(axisOrder)` of §4.1 — a view whose
shape and strides are the source's permuted by `axisOrder`; fails with
`ValueError` if `axisOrder` is not a permutation of `0..ndim-1`. -/
def transpose (order : List Nat) (a : Arr) : Except Err Arr :=
  if List.Perm order (List.range a.shape.length) then
    .ok { a with
      shape := permuteAx order a.shape 1
      strides := permuteAx order a.strides 0
      base := some (a.base.getD a.buf) }
  else .error .valueError

/-- The default transposition `a.T`: reverse all axes. -/
def transposeT (a : Arr) : Except Err Arr :=
  transpose (List.range a.shape.length).reverse a

/-! ### Matrix/vector product and identity (§4.1) -/

/-- Fold-based dot product of two flat integer lists (stops at the
shorter). -/
def dotL (xs ys : List Int) : Int :=
  (xs.zip ys).foldr (fun p acc => p.1 * p.2 + acc) 0

/-- Cut the first `m` rows of length `n` out of a row-major buffer. -/
def takeRows (m n : Nat) (d : List Int) : List (List Int) :=
  match m with
  | 0 => []
  | m + 1 => d.take n :: takeRows m n (d.drop n)

/-- Modelled from the spec: `dot` of §4.1 for a 2-D array of shape (m,n)
and a 1-D array of length n — a 1-D array of length m whose element `i`
is the sum over `j` of `A[i,j]*v[j]`; shape mismatch fails with
`ShapeError`. -/
def dotMV (a v : Vec) : Except Err Vec :=
  match a.shape, v.shape with
  | [m, n], [n'] =>
    if n' = n then
      .ok ⟨[m], (takeRows m n a.data).map (fun row => dotL row v.data)⟩
    else .error .shapeError
  | _, _ => .error .shapeError

/-- Modelled from the spec: `identity(n)` of §4.1 — an n×n array with 1
on the main diagonal and 0 elsewhere (row-major buffer). -/
def identity (n : Nat) : Vec :=
  ⟨[n, n],
    ((List.range n).map (fun i =>
      (List.range n).map (fun j => if i = j then (1 : Int) else 0))).flatten⟩

/-! ### Stacking and concatenation (§4.1) -/

/-- Insert a component at position `k` of a list (at the end if `k`
exceeds the length). -/
def insertAt (k : Nat) (x : Nat) (s : List Nat) : List Nat :=
  s.take k ++ x :: s.drop k

/-- Modelled from the spec: `stack(arrays, axis)` of §4.1 — all inputs
must share an identical shape; inserts a new axis of length
`len(arrays)` at position `axis`, copying each input's data into its
slot; fails with `ShapeError` on shape mismatch and `ValueError` on an
empty input list. -/
def stack (vs : List Vec) (axis : Nat) : Except Err Vec :=
  match vs with
  | [] => .error .valueError
  | v :: rest =>
    if rest.all (fun w => decide (w.shape = v.shape)) then
      let outShape := insertAt axis (rest.length + 1) v.shape
      .ok ⟨outShape,
        tabulate outShape (fun c => ((v :: rest).getD (c.getD axis 0) v).get (c.eraseIdx axis))⟩
    else .error .shapeError

/-- Element of a concatenation at a result coordinate: walk the inputs,
subtracting each one's extent along `axis` until the coordinate falls in
range. -/
def concatPick (vs : List Vec) (axis : Nat) (c : List Nat) : Int :=
  match vs with
  | [] => 0
  | v :: rest =>
    let n := v.shape.getD axis 0
    if c.getD axis 0 < n then v.get c
    else concatPick rest axis (c.set axis (c.getD axis 0 - n))

/-- Modelled from the spec: `concatenate(arrays, axis)` of §4.1 — all
inputs must share an identical shape except along `axis`; the result's
length along `axis` is the sum of the inputs', each input's slab copied
into its offset range; fails with `ShapeError` on shape mismatch and
`ValueError` on an empty input list. -/
def concatenate (vs : List Vec) (axis : Nat) : Except Err Vec :=
  match vs with
  | [] => .error .valueError
  | v :: rest =>
    if rest.all (fun w => decide (w.shape.length = v.shape.length ∧
        w.shape.eraseIdx axis = v.shape.eraseIdx axis)) then
      let total := ((v :: rest).map (fun w => w.shape.getD axis 0)).sum
      let outShape := v.shape.set axis total
      .ok ⟨outShape, tabulate outShape (concatPick (v :: rest) axis)⟩
    else .error .shapeError

lemma validIdx_cons {n : Nat} {s : List Nat} {i : Nat} {is : List Nat} :
    validIdx (n :: s) (i :: is) ↔ i < n ∧ validIdx s is := by
  constructor
  · rintro ⟨hl, h⟩
    refine ⟨by simpa using h 0, by simpa using hl, fun j => by simpa using h (j + 1)⟩
  · rintro ⟨hi, hl, h⟩
    refine ⟨by simpa using hl, fun j => ?_⟩
    cases j with
    | zero => simpa using hi
    | succ j => simpa using h j

lemma flatten_lt {s c : List Nat} (h : validIdx s c) :
    flatten s c < listProd s := by
  induction s generalizing c with
  | nil =>
    have : c = [] := List.length_eq_zero.mp h.1
    subst this; simp [flatten, listProd]
  | cons n s ih =>
    match c with
    | [] => exact absurd h.1 (by simp)
    | i :: is =>
      obtain ⟨hi, hv⟩ := validIdx_cons.mp h
      have hrec := ih hv
      have hmul : (i + 1) * listProd s ≤ n * listProd s :=
        Nat.mul_le_mul_right _ (by omega)
      calc flatten (n :: s) (i :: is) = i * listProd s + flatten s is := rfl
        _ < i * listProd s + listProd s := by omega
        _ = (i + 1) * listProd s := by ring
        _ ≤ n * listProd s := hmul
        _ = listProd (n :: s) := rfl

lemma unflatten_flatten {s c : List Nat} (h : validIdx s c) :
    unflatten s (flatten s c) = c := by
  induction s generalizing c with
  | nil =>
    have : c = [] := List.length_eq_zero.mp h.1
    subst this; rfl
  | cons n s ih =>
    match c with
    | [] => exact absurd h.1 (by simp)
    | i :: is =>
      obtain ⟨hi, hv⟩ := validIdx_cons.mp h
      have hr : flatten s is < listProd s := flatten_lt hv
      have hP : 0 < listProd s := by omega
      show (i * listProd s + flatten s is) / listProd s ::
      unflatten s ((i * listProd s + flatten s is) % listProd s) = i :: is
      rw [Nat.add_comm (i * listProd s) (flatten s is)]
      rw [Nat.add_mul_div_right _ _ hP, Nat.div_eq_of_lt hr,
        Nat.add_mul_mod_self_right, Nat.mod_eq_of_lt hr, ih hv]
      simp

lemma getD_map_range {n i : Nat} (h : i < n) (f : Nat → Int) (d : Int) :
    ((List.range n).map f).getD i d = f i := by
  rw [List.getD_eq_getElem?_getD, List.getElem?_map, List.getElem?_range h]
  simp

lemma tabulate_length (s : List Nat) (f : List Nat → Int) :
    (tabulate s f).length = listProd s := by
  simp [tabulate]

lemma tabulate_getD {s c : List Nat} (f : List Nat → Int) (h : validIdx s c) :
    (tabulate s f).getD (flatten s c) 0 = f c := by
  have hk : flatten s c < listProd s := flatten_lt h
  unfold tabulate
  rw [List.getD_eq_getElem?_getD, List.getElem?_map, List.getElem?_range hk]
  simp [unflatten_flatten h]

lemma getD_set_self {l : List Int} {i : Nat} (h : i < l.length) (x d : Int) :
    (l.set i x).getD i d = x := by
  rw [List.getD_eq_getElem?_getD, List.getElem?_set_self (by simpa using h)]
  simp

lemma getD_set_ne {l : List Int} {i j : Nat} (h : i ≠ j) (x d : Int) :
    (l.set i x).getD j d = l.getD j d := by
  rw [List.getD_eq_getElem?_getD, List.getElem?_set_ne h, ← List.getD_eq_getElem?_getD]

lemma getD_append_left {l m : List Int} {i : Nat} (h : i < l.length) (d : Int) :
    (l ++ m).getD i d = l.getD i d := by
  rw [List.getD_eq_getElem?_getD, List.getElem?_append, if_pos h,
    ← List.getD_eq_getElem?_getD]

lemma getD_set_outer_self {l : List (List Int)} {i : Nat} (h : i < l.length)
    (x : List Int) (d : List Int) : (l.set i x).getD i d = x := by
  rw [List.getD_eq_getElem?_getD, List.getElem?_set_self (by simpa using h)]
  simp

lemma getD_set_outer_ne {l : List (List Int)} {i j : Nat} (h : i ≠ j)
    (x : List Int) (d : List Int) : (l.set i x).getD j d = l.getD j d := by
  rw [List.getD_eq_getElem?_getD, List.getElem?_set_ne h, ← List.getD_eq_getElem?_getD]

lemma getD_outer_append {l m : List (List Int)} {i : Nat} (h : i < l.length)
    (d : List Int) : (l ++ m).getD i d = l.getD i d := by
  rw [List.getD_eq_getElem?_getD, List.getElem?_append, if_pos h,
    ← List.getD_eq_getElem?_getD]

lemma getD_outer_append_last (l : List (List Int)) (x : List Int) (d : List Int) :
    (l ++ [x]).getD l.length d = x := by
  rw [List.getD_eq_getElem?_getD]
  simp

/-- The row-major strides of §3 realize the row-major flat offset: the
strided offset of a coordinate equals its `flatten` position. -/
lemma dotZ_rowMajor (s c : List Nat) :
    dotZ (rowMajorStrides s) c = (flatten s c : Int) := by
  induction s generalizing c with
  | nil => cases c <;> simp [dotZ, rowMajorStrides, flatten]
  | cons n s ih =>
    cases c with
    | nil => simp [dotZ, rowMajorStrides, flatten]
    | cons i is =>
      show (listProd s : Int) * i + dotZ (rowMajorStrides s) is = _
      rw [ih is]
      show _ = ((i * listProd s + flatten s is : Nat) : Int)
      push_cast
      ring

lemma getD_map_poly {α β : Type} {l : List α} {i : Nat} (h : i < l.length)
    (f : α → β) (d : β) (d' : α) : (l.map f).getD i d = f (l.getD i d') := by
  rw [List.getD_eq_getElem?_getD, List.getElem?_map,
    List.getElem?_eq_getElem h, List.getD_eq_getElem l d' h]
  simp

lemma getD_zipWith {α : Type} {f : α → α → α} {l1 l2 : List α} {j : Nat}
    (h1 : j < l1.length) (h2 : j < l2.length) (d : α) :
    (List.zipWith f l1 l2).getD j d = f (l1.getD j d) (l2.getD j d) := by
  induction l1 generalizing l2 j with
  | nil => simp at h1
  | cons x xs ih =>
    cases l2 with
    | nil => simp at h2
    | cons y ys =>
      cases j with
      | zero => simp
      | succ j =>
        simp only [List.zipWith_cons_cons, List.getD_cons_succ]
        exact ih (by simpa using h1) (by simpa using h2)

lemma filterMap_if (l : List (Int × Bool)) :
    l.filterMap (fun p => if p.2 then some p.1 else none) =
      (l.filter (fun p => p.2)).map Prod.fst := by
  induction l with
  | nil => rfl
  | cons p l ih =>
    cases hp : p.2 <;> simp [List.filterMap_cons, List.filter_cons, hp, ih]

lemma broadcastRev_nil (t : List Nat) : broadcastRev t [] = some t := by
  cases t <;> rfl

lemma broadcastShapes_nil (s : List Nat) : broadcastShapes s [] = some s := by
  unfold broadcastShapes
  rw [List.reverse_nil, broadcastRev_nil]
  simp

/-- At a valid coordinate, the broadcast source coordinate of an operand
whose shape is the full result shape is the coordinate itself (an axis of
length 1 only ever sees coordinate 0). -/
lemma srcIdx_self {s c : List Nat} (h : validIdx s c) : srcIdx s c = c := by
  have hl : c.length = s.length := h.1
  unfold srcIdx
  rw [hl, Nat.sub_self, List.drop_zero]
  induction s generalizing c with
  | nil =>
    have : c = [] := List.length_eq_zero.mp h.1
    subst this; rfl
  | cons n s ih =>
    match c with
    | [] => exact absurd h.1 (by simp)
    | i :: is =>
      obtain ⟨hi, hv⟩ := validIdx_cons.mp h
      simp only [List.zip_cons_cons, List.map_cons]
      rw [ih hv hv.1]
      congr 1
      by_cases hn : n = 1
      · subst hn; simp; omega
      · simp [hn]

lemma broadcastGet_scalar (x : Int) (c : List Nat) :
    broadcastGet (scalarVec x) c = x := by
  simp [broadcastGet, scalarVec, srcIdx, Vec.get, flatten]

lemma broadcastGet_self {a : Vec} {c : List Nat} (h : validIdx a.shape c) :
    broadcastGet a c = a.get c := by
  simp [broadcastGet, srcIdx_self h]

lemma binop_scalar_eq (f : Int → Int → Int) (a : Vec) (x : Int) :
    binop f a (scalarVec x) =
      .ok ⟨a.shape, tabulate a.shape
        (fun c => f (broadcastGet a c) (broadcastGet (scalarVec x) c))⟩ := by
  unfold binop
  have hb : broadcastShapes a.shape (scalarVec x).shape = some a.shape :=
    broadcastShapes_nil a.shape
  rw [hb]

lemma promote_obj_left (a : Kind) : promote .kobject a = .kobject := by
  cases a <;> rfl

lemma promote_obj_right (k : Kind) : promote k .kobject = .kobject := by
  cases k <;> rfl

lemma promote_ne_obj {k a : Kind} (hk : k ≠ .kobject) (ha : a ≠ .kobject) :
    promote k a ≠ .kobject := by
  cases k <;> cases a <;> simp_all [promote, kindRank]

lemma promote_float {k a : Kind} (hk : k ≠ .kobject) (ha : a ≠ .kobject)
    (h : k = .kfloat ∨ a = .kfloat) : promote k a = .kfloat := by
  cases k <;> cases a <;> simp_all [promote, kindRank]

/-- The generic-object kind absorbs the whole promotion fold. -/
lemma foldl_promote_obj (l : List Kind) (k : Kind)
    (h : k = .kobject ∨ Kind.kobject ∈ l) : l.foldl promote k = .kobject := by
  induction l generalizing k with
  | nil => simpa using h.resolve_right (by simp)
  | cons a l ih =>
    rcases h with hk | hmem
    · exact ih _ (Or.inl (by rw [hk, promote_obj_left]))
    · rcases List.mem_cons.mp hmem with ha | hl
      · exact ih _ (Or.inl (by rw [← ha, promote_obj_right]))
      · exact ih _ (Or.inr hl)

/-- When no leaf is the generic-object kind, the float kind is the top of
the promotion order: a float anywhere makes the fold float. -/
lemma foldl_promote_float (l : List Kind) (k : Kind)
    (hl : Kind.kobject ∉ l) (hk : k ≠ .kobject)
    (hf : k = .kfloat ∨ Kind.kfloat ∈ l) : l.foldl promote k = .kfloat := by
  induction l generalizing k with
  | nil => simpa using hf.resolve_right (by simp)
  | cons a l ih =>
    have ha : a ≠ .kobject := fun h => hl (by simp [h])
    have hl' : Kind.kobject ∉ l := fun h => hl (by simp [h])
    have hne : promote k a ≠ .kobject := promote_ne_obj hk ha
    rcases hf with hkf | hmem
    · exact ih _ hl' hne (Or.inl (promote_float hk ha (Or.inl hkf)))
    · rcases List.mem_cons.mp hmem with haf | hlf
      · exact ih _ hl' hne (Or.inl (promote_float hk ha (Or.inr haf.symm)))
      · exact ih _ hl' hne (Or.inr hlf)

/-- Permuting by `p` and then by a right inverse `q` of `p` restores a
list of the permuted length. -/
lemma permuteAx_inv {α : Type} {p q : List Nat} {n : Nat} {xs : List α} (d : α)
    (hp : p.length = n) (hq : q.length = n) (hqmem : ∀ j ∈ q, j < n)
    (hinv : ∀ i < n, p.getD (q.getD i 0) 0 = i) (hxs : xs.length = n) :
    permuteAx q (permuteAx p xs d) d = xs := by
  apply List.ext_getElem
  · simp [permuteAx, hq, hxs]
  · intro i h1 h2
    have hi : i < n := by simpa [permuteAx, hq] using h1
    have hiq : i < q.length := by omega
    have step1 : (permuteAx q (permuteAx p xs d) d)[i] =
        (permuteAx p xs d).getD q[i] d := List.getElem_map _
    have hji : q[i] < n := hqmem _ (List.getElem_mem _)
    have hjp : q[i] < p.length := by omega
    have step2 : (permuteAx p xs d).getD q[i] d =
        xs.getD (p.getD q[i] 0) d := getD_map_poly hjp _ d 0
    have hqg : q.getD i 0 = q[i] := List.getD_eq_getElem q 0 hiq
    rw [step1, step2, ← hqg, hinv i hi]
    exact List.getD_eq_getElem xs d h2

lemma getD_take_lt {l : List Int} {n j : Nat} (h : j < n) (d : Int) :
    (l.take n).getD j d = l.getD j d := by
  rw [List.getD_eq_getElem?_getD, List.getElem?_take, if_pos h,
    ← List.getD_eq_getElem?_getD]

lemma getD_drop' (l : List Int) (n m : Nat) (d : Int) :
    (l.drop n).getD m d = l.getD (n + m) d := by
  rw [List.getD_eq_getElem?_getD, List.getElem?_drop, ← List.getD_eq_getElem?_getD]

lemma takeRows_length (m n : Nat) (d : List Int) :
    (takeRows m n d).length = m := by
  induction m generalizing d with
  | zero => rfl
  | succ m ih => simp [takeRows, ih]

lemma takeRows_getD {m i : Nat} (n : Nat) (d : List Int) (hi : i < m) :
    (takeRows m n d).getD i [] = (d.drop (i * n)).take n := by
  induction m generalizing i d with
  | zero => omega
  | succ m ih =>
    cases i with
    | zero => simp [takeRows]
    | succ i =>
      show (takeRows m n (d.drop n)).getD i [] = _
      rw [ih _ (by omega), List.drop_drop]
      congr 2
      ring

lemma dotL_sum (xs ys : List Int) :
    dotL xs ys = ∑ j in Finset.range (min xs.length ys.length),
      xs.getD j 0 * ys.getD j 0 := by
  induction xs generalizing ys with
  | nil => simp [dotL]
  | cons x xs ih =>
    cases ys with
    | nil => simp [dotL]
    | cons y ys =>
      have hcons : dotL (x :: xs) (y :: ys) = x * y + dotL xs ys := rfl
      rw [hcons, ih]
      rw [List.length_cons, List.length_cons, Nat.succ_min_succ,
        Finset.sum_range_succ']
      simp only [List.getD_cons_zero, List.getD_cons_succ]
      ring

lemma dotL_all_zero {xs : List Int} (ys : List Int) (h : ∀ x ∈ xs, x = 0) :
    dotL xs ys = 0 := by
  induction xs generalizing ys with
  | nil => rfl
  | cons x xs ih =>
    cases ys with
    | nil => rfl
    | cons y ys =>
      have hcons : dotL (x :: xs) (y :: ys) = x * y + dotL xs ys := rfl
      rw [hcons, h x (by simp), ih _ (fun z hz => h z (by simp [hz]))]
      ring

/-- The dot product of the `i`-th standard basis row against a vector
picks out the vector's `i`-th component. -/
lemma dotL_basis (v : List Int) (i : Nat) (hi : i < v.length) :
    dotL ((List.range v.length).map (fun j => if i = j then (1 : Int) else 0)) v =
      v.getD i 0 := by
  induction v generalizing i with
  | nil => simp at hi
  | cons x xs ih =>
    rw [List.length_cons, List.range_succ_eq_map, List.map_cons, List.map_map]
    cases i with
    | zero =>
      have hz : dotL ((List.range xs.length).map
          ((fun j => if 0 = j then (1 : Int) else 0) ∘ Nat.succ)) xs = 0 := by
        apply dotL_all_zero
        intro z hz
        obtain ⟨j, _, hj⟩ := List.mem_map.mp hz
        simp at hj
        omega
      have hcons : dotL ((if 0 = 0 then (1 : Int) else 0) :: (List.range xs.length).map
          ((fun j => if 0 = j then (1 : Int) else 0) ∘ Nat.succ)) (x :: xs) =
          (if 0 = 0 then (1 : Int) else 0) * x + dotL ((List.range xs.length).map
          ((fun j => if 0 = j then (1 : Int) else 0) ∘ Nat.succ)) xs := rfl
      rw [hcons, hz]
      simp
    | succ k =>
      have hfn : ((fun j => if k + 1 = j then (1 : Int) else 0) ∘ Nat.succ) =
          (fun j => if k = j then (1 : Int) else 0) := by
        funext j
        by_cases h : k = j
        · simp [h]
        · have h1 : ¬ (k + 1 = j + 1) := by omega
          simp only [Function.comp]
          rw [if_neg h, if_neg (by simpa using h1)]
      have hcons : dotL ((if k + 1 = 0 then (1 : Int) else 0) :: (List.range xs.length).map
          ((fun j => if k + 1 = j then (1 : Int) else 0) ∘ Nat.succ)) (x :: xs) =
          (if k + 1 = 0 then (1 : Int) else 0) * x + dotL ((List.range xs.length).map
          ((fun j => if k + 1 = j then (1 : Int) else 0) ∘ Nat.succ)) xs := rfl
      rw [hcons, hfn, ih k (by simpa using hi)]
      simp

/-- Rows of equal length reassemble from their flattening. -/
lemma takeRows_flatten_rows (rows : List (List Int)) (n : Nat)
    (h : ∀ r ∈ rows, r.length = n) :
    takeRows rows.length n rows.flatten = rows := by
  induction rows with
  | nil => rfl
  | cons r rs ih =>
    have hr : r.length = n := h r (by simp)
    show (r ++ rs.flatten).take n :: takeRows rs.length n ((r ++ rs.flatten).drop n) = _
    have ht : (r ++ rs.flatten).take n = r := by rw [← hr]; exact List.take_left r _
    have hd : (r ++ rs.flatten).drop n = rs.flatten := by rw [← hr]; exact List.drop_left r _
    rw [ht, hd, ih (fun w hw => h w (by simp [hw]))]

lemma map_range_getD (v : List Int) (n : Nat) (h : v.length = n) :
    (List.range n).map (fun i => v.getD i 0) = v := by
  apply List.ext_getElem
  · simp [h]
  · intro i h1 h2
    have hi : i < n := by simpa using h1
    rw [List.getElem_map, List.getElem_range]
    exact List.getD_eq_getElem v 0 h2

lemma insertAt_zero (x : Nat) (s : List Nat) : insertAt 0 x s = x :: s := by
  simp [insertAt]

lemma insertAt_succ_cons (k x m : Nat) (s : List Nat) :
    insertAt (k + 1) x (m :: s) = m :: insertAt k x s := by
  simp [insertAt]

lemma insertAt_getD_self {axis : Nat} {c : List Nat} (k : Nat)
    (h : axis ≤ c.length) : (insertAt axis k c).getD axis 0 = k := by
  induction axis generalizing c with
  | zero => simp [insertAt_zero]
  | succ a ih =>
    match c with
    | [] => simp at h
    | x :: c' =>
      rw [insertAt_succ_cons, List.getD_cons_succ]
      exact ih (by simpa using h)

lemma eraseIdx_insertAt {axis : Nat} {c : List Nat} (k : Nat)
    (h : axis ≤ c.length) : (insertAt axis k c).eraseIdx axis = c := by
  induction axis generalizing c with
  | zero => simp [insertAt_zero]
  | succ a ih =>
    match c with
    | [] => simp at h
    | x :: c' =>
      rw [insertAt_succ_cons]
      show x :: (insertAt a k c').eraseIdx a = x :: c'
      rw [ih (by simpa using h)]

/-- Inserting a coordinate below an inserted axis length keeps a
coordinate valid. -/
lemma validIdx_insertAt {s c : List Nat} {axis k x : Nat}
    (h : validIdx s c) (hax : axis ≤ s.length) (hk : k < x) :
    validIdx (insertAt axis x s) (insertAt axis k c) := by
  induction axis generalizing s c with
  | zero =>
    rw [insertAt_zero, insertAt_zero]
    exact validIdx_cons.mpr ⟨hk, h⟩
  | succ a ih =>
    match s, c with
    | [], _ => simp at hax
    | m :: s', [] => exact absurd h.1 (by simp)
    | m :: s', i :: c' =>
      obtain ⟨hi, hv⟩ := validIdx_cons.mp h
      rw [insertAt_succ_cons, insertAt_succ_cons]
      exact validIdx_cons.mpr ⟨hi, ih hv (by simpa using hax)⟩

/-! ### Claim theorems -/

/-- C2: elementwise binary arithmetic between an array and a scalar
applies the operation to every element and returns an array of the same
shape (the scalar broadcasting as a leading-axes-of-length-1 operand);
`arange(0,10) + 10 = [10..19]` and `arange(0,10) * 2 = [0,2,..,18]`; and a
(3,3) array plus a scalar equals the same array plus a shape-(3,) array
whose values all equal that scalar. -/
theorem C2_scalar_arith_broadcast :
    (∀ (f : Int → Int → Int) (a : Vec) (x : Int),
      ∃ r, binop f a (scalarVec x) = .ok r ∧ r.shape = a.shape ∧
        ∀ c, validIdx a.shape c → r.get c = f (a.get c) x) ∧
    (∀ (f : Int → Int → Int) (d : List Int) (x : Int),
      binop f ⟨[3, 3], d⟩ (scalarVec x) = binop f ⟨[3, 3], d⟩ ⟨[3], [x, x, x]⟩) ∧
    binop (· + ·) ⟨[10], [0, 1, 2, 3, 4, 5, 6, 7, 8, 9]⟩ (scalarVec 10) =
      .ok ⟨[10], [10, 11, 12, 13, 14, 15, 16, 17, 18, 19]⟩ ∧
    binop (· * ·) ⟨[10], [0, 1, 2, 3, 4, 5, 6, 7, 8, 9]⟩ (scalarVec 2) =
      .ok ⟨[10], [0, 2, 4, 6, 8, 10, 12, 14, 16, 18]⟩ ∧
    arange 0 10 1 = .ok ⟨[10], [0, 1, 2, 3, 4, 5, 6, 7, 8, 9]⟩ := by
  refine ⟨?_, fun f d x => rfl, by rfl, by rfl, by rfl⟩
  intro f a x
  refine ⟨_, binop_scalar_eq f a x, rfl, fun c hc => ?_⟩
  have h := tabulate_getD
    (fun c => f (broadcastGet a c) (broadcastGet (scalarVec x) c)) hc
  simp only [] at h
  rw [broadcastGet_scalar, broadcastGet_self hc] at h
  exact h

/-- Witness for C2: `[5,6] + 3` at coordinate `[1]` evaluates to `6 + 3`. -/
theorem C2_scalar_arith_broadcast_witness :
    ∃ r, binop (· + ·) ⟨[2], [5, 6]⟩ (scalarVec 3) = .ok r ∧
      r.shape = [2] ∧ r.get [1] = (Vec.mk [2] [5, 6]).get [1] + 3 := by
  obtain ⟨r, h1, h2, h3⟩ := C2_scalar_arith_broadcast.1 (· + ·) ⟨[2], [5, 6]⟩ 3
  exact ⟨r, h1, h2, h3 [1] (by decide)⟩

/-- C3: dtype inference promotes the kinds of all scalar leaves under
boolean < integer < float — a mix of integer and float leaves yields
float — and any leaf that cannot be unified numerically forces the
generic-object dtype, which disables arithmetic. -/
theorem C3_dtype_promotion :
    (∀ t : Nested, Kind.kobject ∉ leafKinds t → Kind.kfloat ∈ leafKinds t →
      inferDtype t = .kfloat) ∧
    (∀ t : Nested, Kind.kobject ∈ leafKinds t → inferDtype t = .kobject) ∧
    (∀ (f : Int → Int → Int) (kb : Kind) (a b : Vec),
      binopD f .kobject kb a b = .error .typeError ∧
      binopD f kb .kobject a b = .error .typeError) ∧
    inferDtype mixedarray = .kfloat ∧ inferDtype dont_do_this = .kobject := by
  refine ⟨?_, ?_, ?_, by rfl, by rfl⟩
  · intro t hobj hf
    unfold inferDtype
    cases hlk : leafKinds t with
    | nil => rfl
    | cons k ks =>
      rw [hlk] at hobj hf
      have hk : k ≠ .kobject := fun h => hobj (by rw [h]; exact List.mem_cons_self _ _)
      have hks : Kind.kobject ∉ ks := fun h => hobj (List.mem_cons_of_mem _ h)
      have hff : k = .kfloat ∨ Kind.kfloat ∈ ks := by
        rcases List.mem_cons.mp hf with h | h
        · exact Or.inl h.symm
        · exact Or.inr h
      exact foldl_promote_float ks k hks hk hff
  · intro t hobj
    unfold inferDtype
    cases hlk : leafKinds t with
    | nil => rw [hlk] at hobj; simp at hobj
    | cons k ks =>
      rw [hlk] at hobj
      have hko : k = .kobject ∨ Kind.kobject ∈ ks := by
        rcases List.mem_cons.mp hobj with h | h
        · exact Or.inl h.symm
        · exact Or.inr h
      exact foldl_promote_obj ks k hko
  · intro f kb a b
    constructor <;> simp [binopD]

/-- Witness for C3: the notebook's `mixedarray` (ints and floats mixed)
infers the float dtype via the promotion law. -/
theorem C3_dtype_promotion_witness : inferDtype mixedarray = .kfloat :=
  C3_dtype_promotion.1 mixedarray (by decide) (by decide)

/-- C6: mask selection with a mask of identical shape returns a new
1-dimensional copy containing, in row-major iteration order, exactly the
elements whose mask entry is true; `[2,5,7,2,1,8]` selected with the
`> 5` mask gives `[7,8]`; a mask of different shape fails with
`ShapeError`; and the store-level result is a fresh owning buffer,
independent of the source's. -/
theorem C6_mask_selection :
    (∀ (a : Vec) (m : BVec), a.shape = m.shape →
      ∃ r, maskSelect a m = .ok r ∧ r.shape = [r.data.length] ∧
        r.data = ((a.data.zip m.data).filter (fun p => p.2)).map Prod.fst) ∧
    (∀ (a : Vec) (m : BVec), a.shape ≠ m.shape →
      maskSelect a m = .error .shapeError) ∧
    (∀ (st : Store) (a : Arr) (m : BVec) (res : Store × Arr),
      a.buf < st.bufs.length → maskSelectSt st a m = .ok res →
      res.2.base = none ∧ res.2.buf ≠ a.buf) ∧
    maskSelect ⟨[6], [2, 5, 7, 2, 1, 8]⟩
      (cmpScalar (fun x => decide (5 < x)) ⟨[6], [2, 5, 7, 2, 1, 8]⟩) =
      .ok ⟨[2], [7, 8]⟩ := by
  refine ⟨?_, ?_, ?_, by rfl⟩
  · intro a m h
    unfold maskSelect
    rw [if_pos h]
    exact ⟨_, rfl, rfl, filterMap_if _⟩
  · intro a m h
    unfold maskSelect
    rw [if_neg h]
  · intro st a m res hbuf hok
    unfold maskSelectSt at hok
    cases hm : maskSelect (a.toVec st) m with
    | error e => rw [hm] at hok; exact absurd hok (by simp [Except.map])
    | ok v =>
      rw [hm] at hok
      simp only [Except.map] at hok
      have hres : res = st.alloc v := by
        cases hok; rfl
      subst hres
      exact ⟨rfl, by simp only [Store.alloc]; omega⟩

/-- Witness for C6: selecting from `[2,5,7,2,1,8]` with the explicit
`>5` mask `[false,false,true,false,false,true]` via the general law. -/
theorem C6_mask_selection_witness :
    ∃ r, maskSelect ⟨[6], [2, 5, 7, 2, 1, 8]⟩
        ⟨[6], [false, false, true, false, false, true]⟩ = .ok r ∧
      r.shape = [r.data.length] ∧
      r.data = ((([2, 5, 7, 2, 1, 8] : List Int).zip
        [false, false, true, false, false, true]).filter
          (fun p => p.2)).map Prod.fst :=
  C6_mask_selection.1 ⟨[6], [2, 5, 7, 2, 1, 8]⟩
    ⟨[6], [false, false, true, false, false, true]⟩ (by decide)

/-- C10: an elementwise comparison of an array against a scalar returns a
boolean array of the same shape whose entry at each position is true
exactly when the element satisfies the comparison; two masks of equal
shape combine elementwise under `&` and `|`; and such a mask is accepted
by mask selection. -/
theorem C10_comparisons_and_mask_algebra :
    (∀ (p : Int → Bool) (a : Vec), (cmpScalar p a).shape = a.shape ∧
      (a.data.length = listProd a.shape →
        ∀ c, validIdx a.shape c → (cmpScalar p a).get c = p (a.get c))) ∧
    (∀ (m1 m2 : BVec), m1.shape = m2.shape →
      (maskAnd m1 m2).shape = m1.shape ∧ (maskOr m1 m2).shape = m1.shape ∧
      (m1.data.length = m2.data.length →
        ∀ j, j < m1.data.length →
          (maskAnd m1 m2).data.getD j false =
            ((m1.data.getD j false) && (m2.data.getD j false)) ∧
          (maskOr m1 m2).data.getD j false =
            ((m1.data.getD j false) || (m2.data.getD j false)))) ∧
    (∀ (p : Int → Bool) (a : Vec), ∃ r, maskSelect a (cmpScalar p a) = .ok r) ∧
    maskSelect ⟨[6], [2, 5, 7, 2, 1, 8]⟩
      (maskOr (cmpScalar (fun x => decide (x ≤ 2)) ⟨[6], [2, 5, 7, 2, 1, 8]⟩)
        (cmpScalar (fun x => decide (8 ≤ x)) ⟨[6], [2, 5, 7, 2, 1, 8]⟩)) =
      .ok ⟨[4], [2, 2, 1, 8]⟩ := by
  refine ⟨?_, ?_, ?_, by rfl⟩
  · intro p a
    refine ⟨rfl, fun hlen c hc => ?_⟩
    have hflat : flatten a.shape c < a.data.length := by
      rw [hlen]; exact flatten_lt hc
    show (a.data.map p).getD (flatten a.shape c) false = _
    rw [getD_map_poly hflat p false 0]
    rfl
  · intro m1 m2 hsh
    refine ⟨rfl, rfl, fun hlen j hj => ?_⟩
    constructor
    · exact getD_zipWith hj (by omega) false
    · exact getD_zipWith hj (by omega) false
  · intro p a
    unfold maskSelect
    have hc : a.shape = (cmpScalar p a).shape := rfl
    rw [if_pos hc]
    exact ⟨_, rfl⟩

/-- C7: `transpose(axisOrder)` returns a view whose shape and strides are
the source's permuted by `axisOrder`, fails with `ValueError` when
`axisOrder` is not a permutation of `0..ndim-1`, and transposing by `p`
and then by the inverse of `p` restores the original shape with every
element read back at its original coordinates. -/
theorem C7_transpose_roundtrip :
    (∀ (a : Arr) (order : List Nat),
      ¬ List.Perm order (List.range a.shape.length) →
      transpose order a = .error .valueError) ∧
    (∀ (a : Arr) (p : List Nat), List.Perm p (List.range a.shape.length) →
      transpose p a = .ok { a with
        shape := permuteAx p a.shape 1
        strides := permuteAx p a.strides 0
        base := some (a.base.getD a.buf) }) ∧
    (∀ (st : Store) (a : Arr) (p q : List Nat) (b c : Arr),
      a.strides.length = a.shape.length →
      List.Perm p (List.range a.shape.length) →
      List.Perm q (List.range a.shape.length) →
      (∀ i < a.shape.length, p.getD (q.getD i 0) 0 = i) →
      transpose p a = .ok b → transpose q b = .ok c →
      c.shape = a.shape ∧ c.strides = a.strides ∧
      ∀ idx, st.read c idx = st.read a idx) := by
  have hok : ∀ (a : Arr) (p : List Nat), List.Perm p (List.range a.shape.length) →
      transpose p a = .ok { a with
        shape := permuteAx p a.shape 1
        strides := permuteAx p a.strides 0
        base := some (a.base.getD a.buf) } := by
    intro a p hp
    unfold transpose
    rw [if_pos hp]
  refine ⟨?_, hok, ?_⟩
  · intro a order h
    unfold transpose
    rw [if_neg h]
  · intro st a p q b c hstr hp hq hinv htp htq
    have hplen : p.length = a.shape.length := by
      simpa using hp.length_eq
    have hqlen : q.length = a.shape.length := by
      simpa using hq.length_eq
    have hqmem : ∀ j ∈ q, j < a.shape.length := by
      intro j hj
      exact List.mem_range.mp (hq.mem_iff.mp hj)
    rw [hok a p hp] at htp
    have hb : b = { a with
        shape := permuteAx p a.shape 1
        strides := permuteAx p a.strides 0
        base := some (a.base.getD a.buf) } := by
      injection htp with h
      exact h.symm
    subst hb
    have hblen : (permuteAx p a.shape 1).length = a.shape.length := by
      simp [permuteAx, hplen]
    rw [hok _ q (by simpa [hblen] using hq)] at htq
    have hc : c = { a with
        shape := permuteAx q (permuteAx p a.shape 1) 1
        strides := permuteAx q (permuteAx p a.strides 0) 0
        base := some (Option.getD (some (a.base.getD a.buf)) a.buf) } := by
      injection htq with h
      exact h.symm
    subst hc
    have hshape : permuteAx q (permuteAx p a.shape 1) 1 = a.shape :=
      permuteAx_inv 1 hplen hqlen hqmem hinv rfl
    have hstrides : permuteAx q (permuteAx p a.strides 0) 0 = a.strides :=
      permuteAx_inv 0 hplen hqlen hqmem hinv hstr
    refine ⟨hshape, hstrides, fun idx => ?_⟩
    unfold Store.read Arr.ofs
    rw [hstrides]

/-- Witness for C7: the notebook's `a = arange(18).reshape(2,3,3)` with
order `(0,2,1)` (self-inverse) — the double transpose restores shape
`[2,3,3]`, strides `[9,3,1]`, and all reads. -/
theorem C7_transpose_roundtrip_witness :
    let st : Store := ⟨[[0, 1, 2, 3, 4, 5, 6, 7, 8, 9, 10, 11, 12, 13, 14, 15, 16, 17]]⟩
    let a : Arr := ⟨0, 0, [2, 3, 3], [9, 3, 1], none⟩
    let c : Arr := ⟨0, 0, [2, 3, 3], [9, 3, 1], some 0⟩
    c.shape = a.shape ∧ c.strides = a.strides ∧
    ∀ idx, st.read c idx = st.read a idx :=
  (C7_transpose_roundtrip.2.2
    ⟨[[0, 1, 2, 3, 4, 5, 6, 7, 8, 9, 10, 11, 12, 13, 14, 15, 16, 17]]⟩
    ⟨0, 0, [2, 3, 3], [9, 3, 1], none⟩ [0, 2, 1] [0, 2, 1]
    ⟨0, 0, [2, 3, 3], [9, 1, 3], some 0⟩ ⟨0, 0, [2, 3, 3], [9, 3, 1], some 0⟩
    (by decide) (by decide) (by decide) (by decide) (by rfl) (by rfl))

/-- C8: `dot` of a 2-D array of shape (m,n) with a 1-D array of length n
returns a 1-D array of length m whose element `i` equals the sum over `j`
of `A[i,j]*v[j]`; and for every n and every length-n vector v,
`dot(identity(n), v)` returns v unchanged. -/
theorem C8_dot_matvec_identity :
    (∀ (m n : Nat) (ad vd : List Int), ad.length = m * n → vd.length = n →
      ∃ r, dotMV ⟨[m, n], ad⟩ ⟨[n], vd⟩ = .ok r ∧ r.shape = [m] ∧
        r.data.length = m ∧
        ∀ i < m, r.data.getD i 0 =
          ∑ j in Finset.range n,
            (Vec.mk [m, n] ad).get [i, j] * (Vec.mk [n] vd).get [j]) ∧
    (∀ (n : Nat) (v : List Int), v.length = n →
      dotMV (identity n) ⟨[n], v⟩ = .ok ⟨[n], v⟩) ∧
    dotMV ⟨[3, 3], [0, 1, 2, 3, 4, 5, 6, 7, 8]⟩ ⟨[3], [10, 11, 12]⟩ =
      .ok ⟨[3], [35, 134, 233]⟩ := by
  refine ⟨?_, ?_, by rfl⟩
  · intro m n ad vd had hvd
    have heq : dotMV ⟨[m, n], ad⟩ ⟨[n], vd⟩ =
        .ok ⟨[m], (takeRows m n ad).map (fun row => dotL row vd)⟩ := by
      simp [dotMV]
    refine ⟨_, heq, rfl, by simp [takeRows_length], ?_⟩
    intro i hi
    have hrl : i < (takeRows m n ad).length := by
      rw [takeRows_length]; exact hi
    rw [getD_map_poly hrl _ 0 [], takeRows_getD n ad hi, dotL_sum]
    have hlen1 : ((ad.drop (i * n)).take n).length = n := by
      rw [List.length_take, List.length_drop, had]
      have h1 : i * n + n ≤ m * n := by
        have h2 := Nat.mul_le_mul_right n (show i + 1 ≤ m by omega)
        rw [Nat.succ_mul] at h2
        exact h2
      omega
    rw [hlen1, hvd, Nat.min_self]
    apply Finset.sum_congr rfl
    intro j hj
    have hjn : j < n := Finset.mem_range.mp hj
    rw [getD_take_lt hjn, getD_drop']
    simp only [Vec.get]
    have hflat : flatten [m, n] [i, j] = i * n + j := by
      simp [flatten, listProd]
    have hflat2 : flatten [n] [j] = j := by
      simp [flatten, listProd]
    rw [hflat, hflat2]
  · intro n v hv
    subst hv
    have hrows : ∀ r ∈ (List.range v.length).map (fun i =>
        (List.range v.length).map (fun j => if i = j then (1 : Int) else 0)),
        r.length = v.length := by
      intro r hr
      obtain ⟨i, _, hi⟩ := List.mem_map.mp hr
      rw [← hi]; simp
    have hlen : ((List.range v.length).map (fun i =>
        (List.range v.length).map (fun j => if i = j then (1 : Int) else 0))).length
          = v.length := by simp
    have htr := takeRows_flatten_rows _ v.length hrows
    rw [hlen] at htr
    have heq : dotMV (identity v.length) ⟨[v.length], v⟩ =
        .ok ⟨[v.length], ((List.range v.length).map (fun i =>
          (List.range v.length).map (fun j => if i = j then (1 : Int) else 0))).map
            (fun row => dotL row v)⟩ := by
      simp [dotMV, identity, htr]
    have hbasis : ∀ i ∈ List.range v.length,
        ((fun row => dotL row v) ∘ (fun i =>
          (List.range v.length).map (fun j => if i = j then (1 : Int) else 0))) i =
        v.getD i 0 := by
      intro i hi
      exact dotL_basis v i (List.mem_range.mp hi)
    have hdata : ((List.range v.length).map (fun i =>
        (List.range v.length).map (fun j => if i = j then (1 : Int) else 0))).map
          (fun row => dotL row v) = v := by
      rw [List.map_map, List.map_congr_left hbasis, map_range_getD v _ rfl]
    rw [heq, hdata]

/-- Witness for C8: `dot(identity(4), [1,2,3,4]) = [1,2,3,4]` (the
notebook's `np.eye(4)`). -/
theorem C8_dot_matvec_identity_witness :
    dotMV (identity 4) ⟨[4], [1, 2, 3, 4]⟩ = .ok ⟨[4], [1, 2, 3, 4]⟩ :=
  C8_dot_matvec_identity.2.1 4 [1, 2, 3, 4] (by decide)

/-- C9: `stack(arrays, axis)` requires identical input shapes and inserts a
new axis of length `len(arrays)` at position `axis`, preserving each
input's elements in its slot (two length-3 vectors stack to shape (2,3) at
axis 0 and (3,2) at axis 1); `concatenate(arrays, axis)` requires identical
shapes except along `axis` and sums the lengths along `axis` (two length-3
vectors concatenate to length 6 in order); both fail with `ShapeError` on
shape mismatch and `ValueError` on an empty input list. -/
theorem C9_stack_concatenate :
    (∀ (v : Vec) (rest : List Vec) (axis : Nat), axis ≤ v.shape.length →
      (∀ w ∈ rest, w.shape = v.shape) →
      ∃ r, stack (v :: rest) axis = .ok r ∧
        r.shape = insertAt axis (rest.length + 1) v.shape ∧
        ∀ k c, k < rest.length + 1 → validIdx v.shape c →
          r.get (insertAt axis k c) = ((v :: rest).getD k v).get c) ∧
    (∀ (v : Vec) (rest : List Vec) (axis : Nat),
      ¬ (∀ w ∈ rest, w.shape = v.shape) →
      stack (v :: rest) axis = .error .shapeError) ∧
    (∀ axis, stack [] axis = .error .valueError) ∧
    (∀ (v : Vec) (rest : List Vec) (axis : Nat),
      (∀ w ∈ rest, w.shape.length = v.shape.length ∧
        w.shape.eraseIdx axis = v.shape.eraseIdx axis) →
      ∃ r, concatenate (v :: rest) axis = .ok r ∧
        r.shape = v.shape.set axis
          (((v :: rest).map (fun w => w.shape.getD axis 0)).sum)) ∧
    (∀ (v : Vec) (rest : List Vec) (axis : Nat),
      ¬ (∀ w ∈ rest, w.shape.length = v.shape.length ∧
        w.shape.eraseIdx axis = v.shape.eraseIdx axis) →
      concatenate (v :: rest) axis = .error .shapeError) ∧
    (∀ axis, concatenate [] axis = .error .valueError) ∧
    stack [⟨[3], [0, 1, 2]⟩, ⟨[3], [3, 4, 5]⟩] 0 = .ok ⟨[2, 3], [0, 1, 2, 3, 4, 5]⟩ ∧
    stack [⟨[3], [0, 1, 2]⟩, ⟨[3], [3, 4, 5]⟩] 1 = .ok ⟨[3, 2], [0, 3, 1, 4, 2, 5]⟩ ∧
    concatenate [⟨[3], [0, 1, 2]⟩, ⟨[3], [3, 4, 5]⟩] 0 =
      .ok ⟨[6], [0, 1, 2, 3, 4, 5]⟩ := by
  refine ⟨?_, ?_, fun axis => rfl, ?_, ?_, fun axis => rfl, by rfl, by rfl, by rfl⟩
  · intro v rest axis hax hsh
    have hall : rest.all (fun w => decide (w.shape = v.shape)) = true := by
      rw [List.all_eq_true]
      intro w hw
      exact decide_eq_true (hsh w hw)
    have heq : stack (v :: rest) axis =
        .ok ⟨insertAt axis (rest.length + 1) v.shape,
          tabulate (insertAt axis (rest.length + 1) v.shape)
            (fun c => ((v :: rest).getD (c.getD axis 0) v).get (c.eraseIdx axis))⟩ := by
      simp [stack, hall]
    refine ⟨_, heq, rfl, ?_⟩
    intro k c hk hc
    have hvalid : validIdx (insertAt axis (rest.length + 1) v.shape)
        (insertAt axis k c) := validIdx_insertAt hc hax hk
    have ht := tabulate_getD
      (fun c => ((v :: rest).getD (c.getD axis 0) v).get (c.eraseIdx axis)) hvalid
    have hcl : axis ≤ c.length := by rw [hc.1]; exact hax
    simp only [Vec.get] at ht ⊢
    rw [ht]
    rw [insertAt_getD_self k hcl, eraseIdx_insertAt k hcl]
  · intro v rest axis h
    cases hb : rest.all (fun w => decide (w.shape = v.shape)) with
    | true =>
      exact absurd (fun w hw => of_decide_eq_true (List.all_eq_true.mp hb w hw)) h
    | false => simp [stack, hb]
  · intro v rest axis hsh
    have hall : rest.all (fun w => decide (w.shape.length = v.shape.length ∧
        w.shape.eraseIdx axis = v.shape.eraseIdx axis)) = true := by
      rw [List.all_eq_true]
      intro w hw
      exact decide_eq_true (hsh w hw)
    exact ⟨_, by simp only [concatenate, hall]; rfl, rfl⟩
  · intro v rest axis h
    cases hb : rest.all (fun w => decide (w.shape.length = v.shape.length ∧
        w.shape.eraseIdx axis = v.shape.eraseIdx axis)) with
    | true =>
      exact absurd (fun w hw => of_decide_eq_true (List.all_eq_true.mp hb w hw)) h
    | false => simp only [concatenate, hb]; rfl

/-- Witness for C9: stacking `[0,1,2]` and `[3,4,5]` at axis 0 through the
general law; the inner slot-preservation is further checked at the second
input's coordinate `[2]` (value 5). -/
theorem C9_stack_concatenate_witness :
    ∃ r, stack [⟨[3], [0, 1, 2]⟩, ⟨[3], [3, 4, 5]⟩] 0 = .ok r ∧
      r.shape = insertAt 0 2 [3] ∧
      ∀ k c, k < 2 → validIdx [3] c →
        r.get (insertAt 0 k c) =
          (([⟨[3], [0, 1, 2]⟩, ⟨[3], [3, 4, 5]⟩] : List Vec).getD k
            ⟨[3], [0, 1, 2]⟩).get c :=
  C9_stack_concatenate.1 ⟨[3], [0, 1, 2]⟩ [⟨[3], [3, 4, 5]⟩] 0
    (by decide) (by decide)

/-- Witness for C10: the `> 5` comparison on `[2,5,7,2,1,8]` evaluated at
coordinate `[2]` is true (7 > 5). -/
theorem C10_comparisons_witness :
    (cmpScalar (fun x => decide (5 < x)) ⟨[6], [2, 5, 7, 2, 1, 8]⟩).shape = [6] ∧
    (cmpScalar (fun x => decide (5 < x)) ⟨[6], [2, 5, 7, 2, 1, 8]⟩).get [2] =
      decide (5 < (Vec.mk [6] [2, 5, 7, 2, 1, 8]).get [2]) := by
  obtain ⟨h1, h2⟩ :=
    C10_comparisons_and_mask_algebra.1 (fun x => decide (5 < x)) ⟨[6], [2, 5, 7, 2, 1, 8]⟩
  exact ⟨h1, h2 (by decide) [2] (by decide)⟩

/-- C1: for every array `a`, the full-range slice `a[:]` is a view aliasing
`a`'s buffer: after mutating any element of `a`, reading that position
through the slice observes the new value; whereas `a.copy()` allocates a
fresh independent buffer with no `base`, so the same mutation of `a` is not
observed in the copy. -/
theorem C1_full_slice_aliases_copy_independent
    (st : Store) (a : Arr) (idx : List Nat) (v : Int)
    (hbuf : a.buf < st.bufs.length)
    (hofs : 0 ≤ a.ofs idx)
    (hlen : (a.ofs idx).toNat < (st.bufs.getD a.buf []).length)
    (hvalid : validIdx a.shape idx) :
    ((st.copy a).1.write a idx v).read (sliceFull a) idx = v ∧
    ((st.copy a).1.write a idx v).read (st.copy a).2 idx = st.read a idx ∧
    (st.copy a).2.base = none ∧ (st.copy a).2.buf ≠ a.buf := by
  have hofs' : (sliceFull a).ofs idx = a.ofs idx := rfl
  have hbuf2 : a.buf < ((st.copy a).1).bufs.length := by
    simp only [Store.copy, Store.alloc]
    rw [List.length_append]
    omega
  refine ⟨?_, ?_, rfl, by simp only [Store.copy, Store.alloc]; omega⟩
  · show getI ((((st.copy a).1).bufs.set a.buf
        ((((st.copy a).1).bufs.getD a.buf []).set (a.ofs idx).toNat v)).getD
        (sliceFull a).buf []) ((sliceFull a).ofs idx) = v
    have hb : (sliceFull a).buf = a.buf := rfl
    rw [hb, hofs', getD_set_outer_self hbuf2]
    have happ : ((st.copy a).1).bufs.getD a.buf [] = st.bufs.getD a.buf [] := by
      simp only [Store.copy, Store.alloc]
      exact getD_outer_append hbuf _
    rw [happ]
    unfold getI
    rw [if_pos hofs, getD_set_self hlen]
  · show getI ((((st.copy a).1).bufs.set a.buf
        ((((st.copy a).1).bufs.getD a.buf []).set (a.ofs idx).toNat v)).getD
        ((st.copy a).2).buf []) (((st.copy a).2).ofs idx) = st.read a idx
    have hb : ((st.copy a).2).buf = st.bufs.length := rfl
    have hne : a.buf ≠ st.bufs.length := by omega
    rw [hb, getD_set_outer_ne hne]
    have happ : ((st.copy a).1).bufs.getD st.bufs.length [] =
        tabulate a.shape (fun c => st.read a c) := by
      simp only [Store.copy, Store.alloc, Arr.toVec]
      exact getD_outer_append_last _ _ _
    rw [happ]
    have hc : ((st.copy a).2).ofs idx = ((flatten a.shape idx : Nat) : Int) := by
      show (0 : Int) + dotZ (rowMajorStrides a.shape) idx = _
      rw [dotZ_rowMajor]
      ring
    rw [hc]
    unfold getI
    rw [if_pos (by positivity)]
    rw [Int.toNat_ofNat]
    exact tabulate_getD _ hvalid

/-- Witness for C1: the notebook's scenario — `a = arange(10)` owning buffer
0, copy taken, then `a[-1] = 90` (index 9): the full-range slice reads 90,
the copy still reads 9, has no base and a distinct buffer. -/
theorem C1_full_slice_aliases_copy_independent_witness :
    let st : Store := ⟨[[0, 1, 2, 3, 4, 5, 6, 7, 8, 9]]⟩
    let a : Arr := ⟨0, 0, [10], [1], none⟩
    ((st.copy a).1.write a [9] 90).read (sliceFull a) [9] = 90 ∧
    ((st.copy a).1.write a [9] 90).read (st.copy a).2 [9] = st.read a [9] ∧
    (st.copy a).2.base = none ∧ (st.copy a).2.buf ≠ a.buf :=
  C1_full_slice_aliases_copy_independent ⟨[[0, 1, 2, 3, 4, 5, 6, 7, 8, 9]]⟩
    ⟨0, 0, [10], [1], none⟩ [9] 90 (by decide) (by decide) (by decide) (by decide)

/-- C4 counterexample: the claim says `arange(start, stop, step)` has
exactly `ceil((stop-start)/step)` elements for every input, but at
`arange(10, 0, 1)` the result is empty (0 elements) while
`ceil((0-10)/1) = -10`; an element count cannot equal `-10`. -/
theorem C4_arange_counterexample :
    exSize (arange 10 0 1) = 0 ∧ ceilDiv (0 - 10) 1 = -10 ∧
    ¬ ((0 : Int) = (-10 : Int)) := by
  decide

/-- C4 (amended): `arange(start, stop, step)` produces a 1-dimensional
array of exactly `max 0 (ceil((stop-start)/step))` elements (the count is
clamped at zero), with element `i` equal to `start + i*step`; in
particular `arange(0,10)` (start default 0, step default 1) has size 10
with elements 0..9, `arange(100,90,-1)` has size 10 with elements 100
down to 91, and `arange(5,5)` has size 0. -/
theorem C4_arange_size (start stop step : Int) (h : step ≠ 0) :
    (∃ v, arange start stop step = .ok v ∧
      v.shape = [(ceilDiv (stop - start) step).toNat] ∧
      v.data.length = (ceilDiv (stop - start) step).toNat ∧
      ∀ i < v.data.length, v.data.getD i 0 = start + i * step) ∧
    arange 0 10 1 = .ok ⟨[10], [0, 1, 2, 3, 4, 5, 6, 7, 8, 9]⟩ ∧
    arange 100 90 (-1) = .ok ⟨[10], [100, 99, 98, 97, 96, 95, 94, 93, 92, 91]⟩ ∧
    exSize (arange 5 5 1) = 0 := by
  refine ⟨?_, by rfl, by rfl, by rfl⟩
  unfold arange
  rw [if_neg h]
  refine ⟨_, rfl, rfl, by simp, fun i hi => ?_⟩
  simp only [List.length_map, List.length_range] at hi
  exact getD_map_range hi _ _

/-- Witness for C4: instantiating the general size law at
`arange(0, 10, 1)`. -/
theorem C4_arange_size_witness :
    (∃ v, arange 0 10 1 = .ok v ∧
      v.shape = [(ceilDiv (10 - 0) 1).toNat] ∧
      v.data.length = (ceilDiv (10 - 0) 1).toNat ∧
      ∀ i < v.data.length, v.data.getD i 0 = 0 + i * 1) :=
  (C4_arange_size 0 10 1 (by decide)).1

/-- C5 counterexample: the claim says every non-positive step fails with
`ValueError`, but the notebook's own `np.arange(100, 90, -1)` (step `-1`,
non-positive) succeeds with 10 elements. -/
theorem C5_arange_counterexample :
    (-1 : Int) ≤ 0 ∧
    arange 100 90 (-1) =
      .ok ⟨[10], [100, 99, 98, 97, 96, 95, 94, 93, 92, 91]⟩ :=
  ⟨by decide, by rfl⟩

/-- C5 (amended): `arange` fails with `ValueError` exactly when the step
is zero; a negative step is valid and yields a descending sequence. -/
theorem C5_arange_valueError_iff (start stop step : Int) :
    arange start stop step = .error Err.valueError ↔ step = 0 := by
  unfold arange
  split <;> simp_all

end NDSpec
